import Mathlib

/-!
# Verification of the peak-wallet ledger specification

The repository's visible code is a Next.js frontend (`apps/web/app/page.tsx`)
and NestJS/Lambda bootstrap glue.  The wallet ledger core (LedgerService,
BalanceStore, TransactionStore, WalletQueryService) is specified in `spec.md`
but its implementation is not part of the visible sources, so the ledger
definitions below are modelled from the spec; the frontend helpers
(`safeJoin`, the `loadTxs` item extraction) are embedded from the source.

Amounts are embedded as `Int` (the spec's "integer, smallest currency unit"),
so that non-positive amounts are representable and rejectable.
-/

/-- Transaction type enumeration; `{topup}` in current scope (spec §3). -/
inductive TxType where
  | topup
deriving DecidableEq, Repr

/-- Modelled from the spec: the persisted Transaction record shape
`{txId, userId, type, amount, createdAt, idempotencyKey}` (spec §3, §6). -/
structure Transaction where
  txId : Nat
  userId : String
  type : TxType
  amount : Int
  createdAt : Nat
  idempotencyKey : String
deriving DecidableEq, Repr

/-- Modelled from the spec: the ledger error taxonomy (spec §7). -/
inductive LedgerError where
  | InvalidAmount
  | Conflict
  | ContentionExceeded
  | DuplicateKey
  | StoreUnavailable
  | NotFound
deriving DecidableEq, Repr

/-- Modelled from the spec: combined state of BalanceStore (per-user balance
and optimistic-concurrency version) and TransactionStore (the append-only
log, newest first), plus the id/time sources used when constructing records.
A balance row that does not yet exist reads as `0` (spec §4.1). -/
structure LedgerState where
  balances : String → Int
  versions : String → Nat
  log : List Transaction
  nextTxId : Nat
  now : Nat

/-- The empty initial state: every wallet reads balance 0, empty log. -/
def initState : LedgerState :=
  { balances := fun _ => 0
    versions := fun _ => 0
    log := []
    nextTxId := 0
    now := 0 }

/-- Modelled from the spec: `TransactionStore.FindByIdempotencyKey(userId, key)
-> Transaction | NotFound` (spec §4.2); `none` plays the role of `NotFound`. -/
def FindByIdempotencyKey (log : List Transaction) (u k : String) : Option Transaction :=
  log.find? fun t => t.userId == u && t.idempotencyKey == k

/-- Modelled from the spec: `BalanceStore.Get(userId) -> balance` together with
the version token read used for optimistic concurrency (spec §4.1). -/
def BalanceGet (s : LedgerState) (u : String) : Int × Nat :=
  (s.balances u, s.versions u)

/-- Modelled from the spec: `BalanceStore.ConditionalIncrement(userId, delta,
expectedVersion)`: applies only if the stored version matches, incrementing
the version; otherwise fails with `Conflict` (spec §4.1). -/
def ConditionalIncrement (s : LedgerState) (u : String) (delta : Int)
    (expectedVersion : Nat) : Except LedgerError (Int × Nat × LedgerState) :=
  if s.versions u = expectedVersion then
    let nb := s.balances u + delta
    Except.ok (nb, expectedVersion + 1,
      { s with
        balances := fun x => if x = u then nb else s.balances x
        versions := fun x => if x = u then expectedVersion + 1 else s.versions x })
  else
    Except.error LedgerError.Conflict

/-- Modelled from the spec: `TransactionStore.Append(transaction)`, failing
with `DuplicateKey` when a record with the same `(userId, idempotencyKey)`
already exists; otherwise the record is prepended (newest first) (spec §4.2). -/
def AppendTx (s : LedgerState) (tx : Transaction) : Except LedgerError LedgerState :=
  match FindByIdempotencyKey s.log tx.userId tx.idempotencyKey with
  | some _ => Except.error LedgerError.DuplicateKey
  | none => Except.ok { s with log := tx :: s.log }

/-- The spec's maximum retry count for `Conflict` recovery (spec §4.3 step 4,
§5: "bounded (5 attempts)"). -/
def maxRetries : Nat := 5

/-- Modelled from the spec: steps 3–6 of `LedgerService.TopUp` (spec §4.3):
read `(balance, version)`, attempt the conditional increment (retrying on
`Conflict` up to the fuel bound, exceeding it fails with
`ContentionExceeded`), then construct and `Append` the Transaction record;
on `DuplicateKey` at the append, re-fetch and return the winning record. -/
def topUpLoop (s : LedgerState) (u : String) (amt : Int) (k : String) :
    Nat → Except LedgerError Transaction × LedgerState
  | 0 => (Except.error LedgerError.ContentionExceeded, s)
  | fuel + 1 =>
    match ConditionalIncrement s u amt (BalanceGet s u).2 with
    | Except.error _ => topUpLoop s u amt k fuel
    | Except.ok (_, _, s1) =>
      let tx : Transaction :=
        { txId := s1.nextTxId, userId := u, type := TxType.topup,
          amount := amt, createdAt := s1.now, idempotencyKey := k }
      match AppendTx s1 tx with
      | Except.ok s2 =>
        (Except.ok tx, { s2 with nextTxId := s2.nextTxId + 1, now := s2.now + 1 })
      | Except.error _ =>
        match FindByIdempotencyKey s1.log u k with
        | some w => (Except.ok w, s1)
        | none => (Except.error LedgerError.StoreUnavailable, s)

/-- Modelled from the spec: `LedgerService.TopUp(userId, amount,
idempotencyKey) -> Transaction` (spec §4.3): validate the amount is a
positive integer (else `InvalidAmount`), return the existing record on an
idempotency-key hit without touching the balance, else run the
increment-and-append loop.  The state is returned alongside the result and
is unchanged on failure. -/
def topUp (s : LedgerState) (u : String) (amt : Int) (k : String) :
    Except LedgerError Transaction × LedgerState :=
  if amt ≤ 0 then (Except.error LedgerError.InvalidAmount, s)
  else
    match FindByIdempotencyKey s.log u k with
    | some tx => (Except.ok tx, s)
    | none => topUpLoop s u amt k maxRetries

/-- State reached after a top-up request (failed requests leave it as is). -/
def applyOp (s : LedgerState) (op : String × Int × String) : LedgerState :=
  (topUp s op.1 op.2.1 op.2.2).2

/-- State reached from `s` by a sequence of top-up requests. -/
def runOps (s : LedgerState) (ops : List (String × Int × String)) : LedgerState :=
  ops.foldl applyOp s

/-- Sum of the amounts of all applied (i.e. persisted) transactions of a
user in the log; the derived aggregate the wallet balance must agree with
(spec §3). -/
def appliedSum (log : List Transaction) (u : String) : Int :=
  ((log.filter fun t => t.userId == u).map Transaction.amount).sum

/-- Modelled from the spec: `WalletQueryService.GetBalance` (spec §4.4). -/
def GetBalance (s : LedgerState) (u : String) : Int :=
  s.balances u

/-- Modelled from the spec: `WalletQueryService.GetRecentTransactions`
(spec §4.4): newest first, pure read. -/
def GetRecentTransactions (s : LedgerState) (u : String) (limit : Nat) :
    List Transaction :=
  (s.log.filter fun t => t.userId == u).take limit

/-- The Transaction record constructed by a fresh (non-replayed) top-up. -/
def freshTx (s : LedgerState) (u : String) (amt : Int) (k : String) : Transaction :=
  { txId := s.nextTxId, userId := u, type := TxType.topup,
    amount := amt, createdAt := s.now, idempotencyKey := k }

/-- The state produced by a fresh successful top-up: balance and version
bumped for `u`, the new record prepended to the log. -/
def freshState (s : LedgerState) (u : String) (amt : Int) (k : String) : LedgerState :=
  { balances := fun x => if x = u then s.balances u + amt else s.balances x
    versions := fun x => if x = u then s.versions u + 1 else s.versions x
    log := freshTx s u amt k :: s.log
    nextTxId := s.nextTxId + 1
    now := s.now + 1 }

theorem find_cons_hit (t : Transaction) (rest : List Transaction) (u k : String)
    (h1 : t.userId = u) (h2 : t.idempotencyKey = k) :
    FindByIdempotencyKey (t :: rest) u k = some t := by
  simp [FindByIdempotencyKey, List.find?, h1, h2]

theorem find_cons_miss (t : Transaction) (rest : List Transaction) (u k : String)
    (h : ¬(t.userId = u ∧ t.idempotencyKey = k)) :
    FindByIdempotencyKey (t :: rest) u k = FindByIdempotencyKey rest u k := by
  by_cases h1 : t.userId = u
  · have h2 : t.idempotencyKey ≠ k := fun hk => h ⟨h1, hk⟩
    simp [FindByIdempotencyKey, List.find?, beq_eq_decide, h1, h2]
  · simp [FindByIdempotencyKey, List.find?, beq_eq_decide, h1]

theorem appliedSum_cons (t : Transaction) (rest : List Transaction) (u : String) :
    appliedSum (t :: rest) u
      = (if t.userId = u then t.amount else 0) + appliedSum rest u := by
  by_cases h : t.userId = u <;> simp [appliedSum, List.filter, beq_eq_decide, h]

/-- Characterization of a fresh top-up: positive amount, key not yet used. -/
theorem topUp_fresh (s : LedgerState) (u : String) (amt : Int) (k : String)
    (hpos : 0 < amt) (hfresh : FindByIdempotencyKey s.log u k = none) :
    topUp s u amt k = (Except.ok (freshTx s u amt k), freshState s u amt k) := by
  have hnle : ¬ amt ≤ 0 := by omega
  simp only [topUp, if_neg hnle, hfresh, maxRetries, topUpLoop, ConditionalIncrement,
    BalanceGet, AppendTx, if_pos rfl]
  simp [hfresh, freshTx, freshState]

/-- Replay of an existing idempotency key returns the stored record and
leaves the state untouched. -/
theorem topUp_replay (s : LedgerState) (u : String) (amt : Int) (k : String)
    (tx : Transaction) (hpos : 0 < amt)
    (hfound : FindByIdempotencyKey s.log u k = some tx) :
    topUp s u amt k = (Except.ok tx, s) := by
  have hnle : ¬ amt ≤ 0 := by omega
  simp [topUp, if_neg hnle, hfound]

/-- The conservation invariant of spec §3: every stored balance equals the
sum of the user's applied transactions. -/
def LedgerInv (s : LedgerState) : Prop :=
  ∀ u, s.balances u = appliedSum s.log u

theorem Inv_initState : LedgerInv initState := fun _ => rfl

theorem Inv_applyOp (s : LedgerState) (op : String × Int × String) (h : LedgerInv s) :
    LedgerInv (applyOp s op) := by
  obtain ⟨u, amt, k⟩ := op
  by_cases hpos : 0 < amt
  · cases hf : FindByIdempotencyKey s.log u k with
    | some tx =>
      simpa [applyOp, topUp_replay s u amt k tx hpos hf] using h
    | none =>
      simp only [applyOp, topUp_fresh s u amt k hpos hf]
      intro x
      by_cases hx : x = u
      · subst hx
        simp [freshState, appliedSum_cons, freshTx, h x]
        ring
      · simp [freshState, appliedSum_cons, freshTx, hx, Ne.symm hx, h x]
  · have hle : amt ≤ 0 := by omega
    simpa [applyOp, topUp, if_pos hle] using h

theorem Inv_runOps (ops : List (String × Int × String)) (s : LedgerState)
    (h : LedgerInv s) : LedgerInv (runOps s ops) := by
  induction ops generalizing s with
  | nil => exact h
  | cons op rest ih => exact ih _ (Inv_applyOp s op h)

/-- C1: for every user and every state reachable by a sequence of top-up
requests, the stored wallet balance equals the sum of the amounts of all
applied transactions of that user; the invariant holds after each
operation of the ledger. -/
theorem balance_conservation (ops : List (String × Int × String)) (u : String) :
    (runOps initState ops).balances u = appliedSum (runOps initState ops).log u :=
  Inv_runOps ops initState Inv_initState u

/-- C2: calling TopUp twice with identical arguments (positive amount, key
not yet used) returns the same Transaction both times, the net balance
increase over both calls is exactly the amount, and the second call is a
pure replay: it returns the existing record and leaves the state alone. -/
theorem topUp_idempotent_replay (s : LedgerState) (u : String) (amt : Int)
    (k : String) (hpos : 0 < amt)
    (hfresh : FindByIdempotencyKey s.log u k = none) :
    ∃ tx : Transaction,
      (topUp s u amt k).1 = Except.ok tx ∧
      topUp (topUp s u amt k).2 u amt k = (Except.ok tx, (topUp s u amt k).2) ∧
      (topUp s u amt k).2.balances u = s.balances u + amt := by
  refine ⟨freshTx s u amt k, ?_, ?_, ?_⟩
  · rw [topUp_fresh s u amt k hpos hfresh]
  · rw [topUp_fresh s u amt k hpos hfresh]
    exact topUp_replay _ _ _ _ _ hpos (find_cons_hit _ _ _ _ rfl rfl)
  · rw [topUp_fresh s u amt k hpos hfresh]
    simp [freshState]

/-- Closed instance of `topUp_idempotent_replay` at a concrete input. -/
theorem topUp_idempotent_replay_w :
    (0 : Int) < 500 ∧ FindByIdempotencyKey initState.log "u1" "k1" = none ∧
      (∃ tx : Transaction,
        (topUp initState "u1" 500 "k1").1 = Except.ok tx ∧
        topUp (topUp initState "u1" 500 "k1").2 "u1" 500 "k1"
          = (Except.ok tx, (topUp initState "u1" 500 "k1").2) ∧
        (topUp initState "u1" 500 "k1").2.balances "u1"
          = initState.balances "u1" + 500) :=
  ⟨by decide, rfl, topUp_idempotent_replay initState "u1" 500 "k1" (by decide) rfl⟩

/-- C3: a non-positive amount is rejected with `InvalidAmount`; no
Transaction is created and the state (balance and log) is unchanged. -/
theorem topUp_rejects_nonpositive (s : LedgerState) (u : String) (amt : Int)
    (k : String) (h : amt ≤ 0) :
    topUp s u amt k = (Except.error LedgerError.InvalidAmount, s) := by
  simp [topUp, if_pos h]

/-- Closed instance of `topUp_rejects_nonpositive` at amounts 0 and -5. -/
theorem topUp_rejects_nonpositive_w :
    (0 : Int) ≤ 0 ∧ (-5 : Int) ≤ 0 ∧
      topUp initState "u1" 0 "k1" = (Except.error LedgerError.InvalidAmount, initState) ∧
      topUp initState "u1" (-5) "k1" = (Except.error LedgerError.InvalidAmount, initState) :=
  ⟨by decide, by decide, topUp_rejects_nonpositive _ _ _ _ (by decide),
    topUp_rejects_nonpositive _ _ _ _ (by decide)⟩

/-- C7: two successful top-ups with distinct fresh keys commute in their
effect on the balance: A then B gives the same final balance as B then A,
namely the original balance plus both amounts. -/
theorem topUp_order_independent (s : LedgerState) (u : String) (a b : Int)
    (k1 k2 : String) (ha : 0 < a) (hb : 0 < b) (hk : k1 ≠ k2)
    (h1 : FindByIdempotencyKey s.log u k1 = none)
    (h2 : FindByIdempotencyKey s.log u k2 = none) :
    (runOps s [(u, a, k1), (u, b, k2)]).balances u
        = (runOps s [(u, b, k2), (u, a, k1)]).balances u ∧
      (runOps s [(u, a, k1), (u, b, k2)]).balances u = s.balances u + a + b := by
  have f2 : FindByIdempotencyKey (freshState s u a k1).log u k2 = none := by
    have := find_cons_miss (freshTx s u a k1) s.log u k2 (fun hc => hk hc.2)
    exact this.trans h2
  have f1 : FindByIdempotencyKey (freshState s u b k2).log u k1 = none := by
    have := find_cons_miss (freshTx s u b k2) s.log u k1 (fun hc => hk hc.2.symm)
    exact this.trans h1
  have eAB : runOps s [(u, a, k1), (u, b, k2)]
      = freshState (freshState s u a k1) u b k2 := by
    simp [runOps, applyOp, topUp_fresh s u a k1 ha h1,
      topUp_fresh (freshState s u a k1) u b k2 hb f2]
  have eBA : runOps s [(u, b, k2), (u, a, k1)]
      = freshState (freshState s u b k2) u a k1 := by
    simp [runOps, applyOp, topUp_fresh s u b k2 hb h2,
      topUp_fresh (freshState s u b k2) u a k1 ha f1]
  rw [eAB, eBA]
  constructor <;> (simp [freshState]; try ring)

/-- Closed instance of `topUp_order_independent` at a concrete input. -/
theorem topUp_order_independent_w :
    (0 : Int) < 500 ∧ (0 : Int) < 200 ∧ "k1" ≠ "k2" ∧
      FindByIdempotencyKey initState.log "u1" "k1" = none ∧
      FindByIdempotencyKey initState.log "u1" "k2" = none ∧
      ((runOps initState [("u1", 500, "k1"), ("u1", 200, "k2")]).balances "u1"
          = (runOps initState [("u1", 200, "k2"), ("u1", 500, "k1")]).balances "u1" ∧
        (runOps initState [("u1", 500, "k1"), ("u1", 200, "k2")]).balances "u1"
          = initState.balances "u1" + 500 + 200) :=
  ⟨by decide, by decide, by decide, rfl, rfl,
    topUp_order_independent initState "u1" 500 200 "k1" "k2" (by decide) (by decide)
      (by decide) rfl rfl⟩

/-- Modelled from the spec: the step 3–4 retry loop of `TopUp` under
external write contention.  The adversarial `conflict` schedule says
whether the conditional increment of attempt `i` hits a version `Conflict`
(another writer bumped the version between the read of step 3 and the
write of step 4); on `Conflict` the loop re-reads and retries, consuming
one unit of retry fuel (spec §4.3 step 4). -/
def topUpAttempts (conflict : Nat → Bool) (s : LedgerState) (u : String)
    (amt : Int) (k : String) :
    Nat → Nat → Except LedgerError Transaction × LedgerState
  | _, 0 => (Except.error LedgerError.ContentionExceeded, s)
  | i, fuel + 1 =>
    if conflict i then
      topUpAttempts conflict s u amt k (i + 1) fuel
    else
      match ConditionalIncrement s u amt (BalanceGet s u).2 with
      | Except.error _ => topUpAttempts conflict s u amt k (i + 1) fuel
      | Except.ok (_, _, s1) =>
        let tx : Transaction :=
          { txId := s1.nextTxId, userId := u, type := TxType.topup,
            amount := amt, createdAt := s1.now, idempotencyKey := k }
        match AppendTx s1 tx with
        | Except.ok s2 =>
          (Except.ok tx, { s2 with nextTxId := s2.nextTxId + 1, now := s2.now + 1 })
        | Except.error _ =>
          match FindByIdempotencyKey s1.log u k with
          | some w => (Except.ok w, s1)
          | none => (Except.error LedgerError.StoreUnavailable, s)

/-- Modelled from the spec: `TopUp` under a conflict schedule: same as
`topUp` but with the retry loop exposed to contention. -/
def topUpSched (conflict : Nat → Bool) (s : LedgerState) (u : String)
    (amt : Int) (k : String) : Except LedgerError Transaction × LedgerState :=
  if amt ≤ 0 then (Except.error LedgerError.InvalidAmount, s)
  else
    match FindByIdempotencyKey s.log u k with
    | some tx => (Except.ok tx, s)
    | none => topUpAttempts conflict s u amt k 0 maxRetries

theorem topUpAttempts_ne_conflict (conflict : Nat → Bool) (s : LedgerState)
    (u : String) (amt : Int) (k : String) :
    ∀ fuel i, (topUpAttempts conflict s u amt k i fuel).1
      ≠ Except.error LedgerError.Conflict := by
  intro fuel
  induction fuel with
  | zero => intro i; simp [topUpAttempts]
  | succ n ih =>
    intro i
    by_cases hc : conflict i
    · simpa [topUpAttempts, hc] using ih (i + 1)
    · cases hf : FindByIdempotencyKey s.log u k with
      | none =>
        simp [topUpAttempts, hc, ConditionalIncrement, BalanceGet, AppendTx, hf]
      | some w =>
        simp [topUpAttempts, hc, ConditionalIncrement, BalanceGet, AppendTx, hf]

theorem topUpAttempts_all_conflict (conflict : Nat → Bool) (s : LedgerState)
    (u : String) (amt : Int) (k : String) (hall : ∀ j, conflict j = true) :
    ∀ fuel i, topUpAttempts conflict s u amt k i fuel
      = (Except.error LedgerError.ContentionExceeded, s) := by
  intro fuel
  induction fuel with
  | zero => intro i; simp [topUpAttempts]
  | succ n ih => intro i; simp [topUpAttempts, hall i, ih (i + 1)]

theorem topUpAttempts_eventually_ok (conflict : Nat → Bool) (s : LedgerState)
    (u : String) (amt : Int) (k : String)
    (hfresh : FindByIdempotencyKey s.log u k = none) :
    ∀ fuel i, (∃ j, j < fuel ∧ conflict (i + j) = false) →
      ∃ tx, (topUpAttempts conflict s u amt k i fuel).1 = Except.ok tx := by
  intro fuel
  induction fuel with
  | zero => intro i ⟨j, hj, _⟩; omega
  | succ n ih =>
    intro i ⟨j, hj, hcj⟩
    by_cases hc : conflict i
    · have hj0 : j ≠ 0 := by
        intro h0
        rw [h0, Nat.add_zero, hc] at hcj
        exact Bool.noConfusion hcj
      have hlt : j - 1 < n := by omega
      have heq : i + 1 + (j - 1) = i + j := by omega
      have hc2 : conflict (i + 1 + (j - 1)) = false := by rw [heq]; exact hcj
      simpa [topUpAttempts, hc] using ih (i + 1) ⟨j - 1, hlt, hc2⟩
    · refine ⟨freshTx s u amt k, ?_⟩
      simp only [topUpAttempts, hc, Bool.false_eq_true, ite_false]
      simp only [ConditionalIncrement, BalanceGet, if_pos rfl]
      simp [AppendTx, hfresh, freshTx]

/-- C4: `Conflict` recovery in TopUp is a bounded retry loop: a conflicted
attempt re-reads and retries consuming one unit of the retry budget;
exhausting all `maxRetries = 5` attempts fails with `ContentionExceeded`;
any conflict-free attempt within the budget yields a successful result; and
a `Conflict` error is never surfaced to the caller. -/
theorem topUp_conflict_recovery (conflict : Nat → Bool) (s : LedgerState)
    (u : String) (amt : Int) (k : String) (hpos : 0 < amt)
    (hfresh : FindByIdempotencyKey s.log u k = none) :
    (∀ i fuel, conflict i = true →
      topUpAttempts conflict s u amt k i (fuel + 1)
        = topUpAttempts conflict s u amt k (i + 1) fuel) ∧
    ((∀ j, conflict j = true) →
      topUpSched conflict s u amt k
        = (Except.error LedgerError.ContentionExceeded, s)) ∧
    ((∃ j, j < maxRetries ∧ conflict j = false) →
      ∃ tx, (topUpSched conflict s u amt k).1 = Except.ok tx) ∧
    (topUpSched conflict s u amt k).1 ≠ Except.error LedgerError.Conflict := by
  have hnle : ¬ amt ≤ 0 := by omega
  refine ⟨?_, ?_, ?_, ?_⟩
  · intro i fuel hc
    simp [topUpAttempts, hc]
  · intro hall
    simp [topUpSched, if_neg hnle, hfresh,
      topUpAttempts_all_conflict conflict s u amt k hall]
  · intro ⟨j, hj, hcj⟩
    have := topUpAttempts_eventually_ok conflict s u amt k hfresh maxRetries 0
      ⟨j, hj, by simpa using hcj⟩
    simpa [topUpSched, if_neg hnle, hfresh] using this
  · simp only [topUpSched, if_neg hnle, hfresh]
    exact topUpAttempts_ne_conflict conflict s u amt k maxRetries 0

/-- Closed instance of `topUp_conflict_recovery` under an always-conflicting
schedule at a concrete input. -/
theorem topUp_conflict_recovery_w :
    (0 : Int) < 500 ∧ FindByIdempotencyKey initState.log "u1" "k1" = none ∧
      ((∀ i fuel, (fun _ : Nat => true) i = true →
        topUpAttempts (fun _ : Nat => true) initState "u1" 500 "k1" i (fuel + 1)
          = topUpAttempts (fun _ : Nat => true) initState "u1" 500 "k1" (i + 1) fuel) ∧
      ((∀ j, (fun _ : Nat => true) j = true) →
        topUpSched (fun _ : Nat => true) initState "u1" 500 "k1"
          = (Except.error LedgerError.ContentionExceeded, initState)) ∧
      ((∃ j, j < maxRetries ∧ (fun _ : Nat => true) j = false) →
        ∃ tx, (topUpSched (fun _ : Nat => true) initState "u1" 500 "k1").1 = Except.ok tx) ∧
      (topUpSched (fun _ : Nat => true) initState "u1" 500 "k1").1
        ≠ Except.error LedgerError.Conflict) :=
  ⟨by decide, rfl,
    topUp_conflict_recovery (fun _ : Nat => true) initState "u1" 500 "k1" (by decide) rfl⟩

deriving instance DecidableEq for Except

/-- Program counter of an in-flight `TopUp` request in the concurrent
model: before the step 2 idempotency lookup, between the lookup and the
step 5 append, or finished with a result. -/
inductive ThreadPC where
  | start
  | appending
  | done (result : Except LedgerError Transaction)
deriving DecidableEq, Repr

/-- An in-flight `TopUp(user, amt, key)` request together with its
program counter. -/
structure ThreadSt where
  user : String
  amt : Int
  key : String
  pc : ThreadPC
deriving DecidableEq, Repr

/-- Global state of the concurrent system: the authoritative transaction
log (spec §4.3 recommended simplification: the balance is a live aggregate
over the log, BalanceStore is only a cache refreshed after a successful
append), the id source, and the in-flight requests. -/
structure SysState where
  log : List Transaction
  nextId : Nat
  threads : List ThreadSt
deriving Repr

/-- `true` exactly when the thread has finished. -/
def ThreadPC.isDone : ThreadPC → Bool
  | ThreadPC.done _ => true
  | _ => false

/-- The Transaction record a racing thread constructs for its append. -/
def raceTx (nid : Nat) (t : ThreadSt) : Transaction :=
  { txId := nid, userId := t.user, type := TxType.topup,
    amount := t.amt, createdAt := nid, idempotencyKey := t.key }

/-- Modelled from the spec (§4.3 with the recommended simplification of
step 5, §5): one atomic store operation of an in-flight `TopUp`.  From
`start` the thread validates the amount and performs the step 2
idempotency lookup.  From `appending` it attempts the step 5 `Append`,
whose storage-enforced uniqueness constraint atomically fails with
`DuplicateKey` exactly when a record with the same
`(userId, idempotencyKey)` exists; in that case the thread re-fetches and
returns the winning record (never surfacing the error). -/
def threadStep (log : List Transaction) (nextId : Nat) (t : ThreadSt) :
    ThreadSt × List Transaction × Nat :=
  match t.pc with
  | ThreadPC.done _ => (t, log, nextId)
  | ThreadPC.start =>
    if t.amt ≤ 0 then
      ({ t with pc := ThreadPC.done (Except.error LedgerError.InvalidAmount) },
        log, nextId)
    else
      match FindByIdempotencyKey log t.user t.key with
      | some tx => ({ t with pc := ThreadPC.done (Except.ok tx) }, log, nextId)
      | none => ({ t with pc := ThreadPC.appending }, log, nextId)
  | ThreadPC.appending =>
    match FindByIdempotencyKey log t.user t.key with
    | some w => ({ t with pc := ThreadPC.done (Except.ok w) }, log, nextId)
    | none =>
      ({ t with pc := ThreadPC.done (Except.ok (raceTx nextId t)) },
        raceTx nextId t :: log, nextId + 1)

/-- One interleaving step: the scheduler picks thread `i`, which performs
its next atomic store operation. -/
def sysStep (s : SysState) (i : Nat) : SysState :=
  match s.threads[i]? with
  | none => s
  | some t =>
    let r := threadStep s.log s.nextId t
    { log := r.2.1, nextId := r.2.2, threads := s.threads.set i r.1 }

/-- Execution of the concurrent system under a scheduler choice sequence. -/
def sysRun (s : SysState) (sched : List Nat) : SysState :=
  sched.foldl sysStep s

/-- The initial concurrent state: `n` identical in-flight requests over a
base log. -/
def sysInit (base : List Transaction) (nid : Nat) (u : String) (amt : Int)
    (k : String) (n : Nat) : SysState :=
  { log := base
    nextId := nid
    threads := List.replicate n { user := u, amt := amt, key := k, pc := ThreadPC.start } }

/-- C5: when the step 5 `Append` fails with `DuplicateKey` (a racing
identical request won the race between steps 2 and 5), the operation is
treated as success: the thread re-fetches and finishes with the winning
record, no error is surfaced, and the log — hence the aggregate balance —
is unchanged, so the increment is not counted twice. -/
theorem duplicateKey_resolved (s : SysState) (i : Nat) (t : ThreadSt)
    (w : Transaction) (hi : s.threads[i]? = some t)
    (hpc : t.pc = ThreadPC.appending)
    (hdup : FindByIdempotencyKey s.log t.user t.key = some w) :
    (sysStep s i).log = s.log ∧
    (sysStep s i).threads[i]?
      = some { t with pc := ThreadPC.done (Except.ok w) } ∧
    appliedSum (sysStep s i).log t.user = appliedSum s.log t.user := by
  have hlen : i < s.threads.length := by
    rcases List.getElem?_eq_some.mp hi with ⟨h1, _⟩
    exact h1
  refine ⟨?_, ?_, ?_⟩
  · simp [sysStep, hi, threadStep, hpc, hdup]
  · simp only [sysStep, hi, threadStep, hpc, hdup]
    exact List.getElem?_set_eq_of_lt _ hlen
  · simp [sysStep, hi, threadStep, hpc, hdup]

/-- A concrete winning record for the closed `DuplicateKey` scenario. -/
def c5Tx : Transaction := ⟨0, "u1", TxType.topup, 500, 0, "k1"⟩

/-- A concrete state where the winning record is already in the log and one
thread is about to append the identical request. -/
def c5St : SysState := ⟨[c5Tx], 1, [⟨"u1", 500, "k1", ThreadPC.appending⟩]⟩

/-- Closed instance of `duplicateKey_resolved` at a concrete input. -/
theorem duplicateKey_resolved_w :
    c5St.threads[0]? = some ⟨"u1", 500, "k1", ThreadPC.appending⟩ ∧
    (⟨"u1", 500, "k1", ThreadPC.appending⟩ : ThreadSt).pc = ThreadPC.appending ∧
    FindByIdempotencyKey c5St.log "u1" "k1" = some c5Tx ∧
    ((sysStep c5St 0).log = c5St.log ∧
      (sysStep c5St 0).threads[0]?
        = some ⟨"u1", 500, "k1", ThreadPC.done (Except.ok c5Tx)⟩ ∧
      appliedSum (sysStep c5St 0).log "u1" = appliedSum c5St.log "u1") :=
  ⟨rfl, rfl, rfl, duplicateKey_resolved c5St 0 _ c5Tx rfl rfl rfl⟩

/-- Invariant of `n` identical concurrent requests over a base log that
does not yet hold the contested key: every thread carries the shared
arguments and is either still running or finished with the unique winning
record, and the log is the base log with at most one appended record for
the key. -/
def RaceInv (base : List Transaction) (u : String) (amt : Int) (k : String)
    (s : SysState) : Prop :=
  (∀ t ∈ s.threads, t.user = u ∧ t.amt = amt ∧ t.key = k ∧
    (t.pc = ThreadPC.start ∨ t.pc = ThreadPC.appending ∨
      ∃ w, t.pc = ThreadPC.done (Except.ok w) ∧
        FindByIdempotencyKey s.log u k = some w)) ∧
  (s.log = base ∨ ∃ tx, s.log = tx :: base ∧ tx.userId = u ∧
    tx.idempotencyKey = k ∧ tx.amount = amt)

theorem RaceInv_sysStep (base : List Transaction) (u : String) (amt : Int)
    (k : String) (s : SysState) (i : Nat) (hpos : 0 < amt)
    (h : RaceInv base u amt k s) : RaceInv base u amt k (sysStep s i) := by
  obtain ⟨hth, hlog⟩ := h
  cases hi : s.threads[i]? with
  | none => exact ⟨by simpa [sysStep, hi] using hth, by simpa [sysStep, hi] using hlog⟩
  | some t =>
    obtain ⟨hu, ha, hk, hpc⟩ := hth t (List.getElem?_mem hi)
    have hmem : ∀ t' ∈ (sysStep s i).threads,
        t' ∈ s.threads ∨ t' = (threadStep s.log s.nextId t).1 := by
      intro t' ht'
      simp only [sysStep, hi] at ht'
      exact List.mem_or_eq_of_mem_set ht'
    have hlog' : (sysStep s i).log = (threadStep s.log s.nextId t).2.1 := by
      simp [sysStep, hi]
    rcases hpc with hsta | happ | ⟨w, hdone, hfind⟩
    · -- step 2: validation and idempotency lookup
      have hnle : ¬ t.amt ≤ 0 := by omega
      cases hf : FindByIdempotencyKey s.log u k with
      | some tx =>
        have hstep : (threadStep s.log s.nextId t).1
            = { t with pc := ThreadPC.done (Except.ok tx) } := by
          simp [threadStep, hsta, hnle, hu, hk, hf]
        have hlog2 : (threadStep s.log s.nextId t).2.1 = s.log := by
          simp [threadStep, hsta, hnle, hu, hk, hf]
        refine ⟨?_, by rw [hlog', hlog2]; exact hlog⟩
        intro t' ht'
        rcases hmem t' ht' with hin | heq
        · obtain ⟨h1, h2, h3, h4⟩ := hth t' hin
          refine ⟨h1, h2, h3, ?_⟩
          rw [hlog', hlog2]
          exact h4
        · rw [heq, hstep]
          exact ⟨hu, ha, hk, Or.inr (Or.inr ⟨tx, rfl, by rw [hlog', hlog2]; exact hf⟩)⟩
      | none =>
        have hstep : (threadStep s.log s.nextId t).1
            = { t with pc := ThreadPC.appending } := by
          simp [threadStep, hsta, hnle, hu, hk, hf]
        have hlog2 : (threadStep s.log s.nextId t).2.1 = s.log := by
          simp [threadStep, hsta, hnle, hu, hk, hf]
        refine ⟨?_, by rw [hlog', hlog2]; exact hlog⟩
        intro t' ht'
        rcases hmem t' ht' with hin | heq
        · obtain ⟨h1, h2, h3, h4⟩ := hth t' hin
          refine ⟨h1, h2, h3, ?_⟩
          rw [hlog', hlog2]
          exact h4
        · rw [heq, hstep]
          exact ⟨hu, ha, hk, Or.inr (Or.inl rfl)⟩
    · -- step 5: the atomic append with its uniqueness constraint
      cases hf : FindByIdempotencyKey s.log u k with
      | some w =>
        have hstep : (threadStep s.log s.nextId t).1
            = { t with pc := ThreadPC.done (Except.ok w) } := by
          simp [threadStep, happ, hu, hk, hf]
        have hlog2 : (threadStep s.log s.nextId t).2.1 = s.log := by
          simp [threadStep, happ, hu, hk, hf]
        refine ⟨?_, by rw [hlog', hlog2]; exact hlog⟩
        intro t' ht'
        rcases hmem t' ht' with hin | heq
        · obtain ⟨h1, h2, h3, h4⟩ := hth t' hin
          refine ⟨h1, h2, h3, ?_⟩
          rw [hlog', hlog2]
          exact h4
        · rw [heq, hstep]
          exact ⟨hu, ha, hk, Or.inr (Or.inr ⟨w, rfl, by rw [hlog', hlog2]; exact hf⟩)⟩
      | none =>
        have hbase2 : s.log = base := by
          rcases hlog with h | ⟨tx, he, h1, h2, h3⟩
          · exact h
          · rw [he] at hf
            rw [find_cons_hit tx base u k h1 h2] at hf
            exact Option.noConfusion hf
        have hstep : (threadStep s.log s.nextId t).1
            = { t with pc := ThreadPC.done (Except.ok (raceTx s.nextId t)) } := by
          simp [threadStep, happ, hu, hk, hf]
        have hlog2 : (threadStep s.log s.nextId t).2.1
            = raceTx s.nextId t :: s.log := by
          simp [threadStep, happ, hu, hk, hf]
        have hfind' : FindByIdempotencyKey ((sysStep s i).log) u k
            = some (raceTx s.nextId t) := by
          rw [hlog', hlog2]
          exact find_cons_hit _ _ _ _ hu hk
        refine ⟨?_, ?_⟩
        · intro t' ht'
          rcases hmem t' ht' with hin | heq
          · obtain ⟨h1, h2, h3, h4⟩ := hth t' hin
            refine ⟨h1, h2, h3, ?_⟩
            rcases h4 with h4 | h4 | ⟨w', hw', hfw'⟩
            · exact Or.inl h4
            · exact Or.inr (Or.inl h4)
            · rw [hf] at hfw'
              exact Option.noConfusion hfw'
          · rw [heq, hstep]
            exact ⟨hu, ha, hk, Or.inr (Or.inr ⟨_, rfl, hfind'⟩)⟩
        · exact Or.inr ⟨raceTx s.nextId t, by rw [hlog', hlog2, hbase2], hu, hk, ha⟩
    · -- a finished thread takes no further store action
      have hstep : (threadStep s.log s.nextId t).1 = t := by
        simp [threadStep, hdone]
      have hlog2 : (threadStep s.log s.nextId t).2.1 = s.log := by
        simp [threadStep, hdone]
      refine ⟨?_, by rw [hlog', hlog2]; exact hlog⟩
      intro t' ht'
      rcases hmem t' ht' with hin | heq
      · obtain ⟨h1, h2, h3, h4⟩ := hth t' hin
        refine ⟨h1, h2, h3, ?_⟩
        rw [hlog', hlog2]
        exact h4
      · rw [heq, hstep]
        exact ⟨hu, ha, hk,
          Or.inr (Or.inr ⟨w, hdone, by rw [hlog', hlog2]; exact hfind⟩)⟩

theorem RaceInv_sysRun (base : List Transaction) (u : String) (amt : Int)
    (k : String) (sched : List Nat) (s : SysState) (hpos : 0 < amt)
    (h : RaceInv base u amt k s) : RaceInv base u amt k (sysRun s sched) := by
  induction sched generalizing s with
  | nil => exact h
  | cons i rest ih =>
    exact ih (sysStep s i) (RaceInv_sysStep base u amt k s i hpos h)

theorem sysStep_threads_length (s : SysState) (i : Nat) :
    (sysStep s i).threads.length = s.threads.length := by
  cases hi : s.threads[i]? <;> simp [sysStep, hi]

theorem sysRun_threads_length (s : SysState) (sched : List Nat) :
    (sysRun s sched).threads.length = s.threads.length := by
  induction sched generalizing s with
  | nil => rfl
  | cons i rest ih => rw [sysRun, List.foldl_cons, ← sysRun, ih, sysStep_threads_length]

/-- C6: under any interleaving of the store operations, `n ≥ 1` concurrent
identical requests (same user, amount and key, over a base log without
that key) that all run to completion append exactly one Transaction, every
caller observes that same record, and the aggregate balance increases by
the amount exactly once. -/
theorem concurrent_topUps_single_increment (base : List Transaction)
    (nid : Nat) (u : String) (amt : Int) (k : String) (n : Nat)
    (sched : List Nat) (hpos : 0 < amt)
    (hbase : FindByIdempotencyKey base u k = none) (hn : 0 < n)
    (hdone : ∀ t ∈ (sysRun (sysInit base nid u amt k n) sched).threads,
      t.pc.isDone = true) :
    ∃ tx : Transaction,
      (sysRun (sysInit base nid u amt k n) sched).log = tx :: base ∧
      tx.userId = u ∧ tx.idempotencyKey = k ∧ tx.amount = amt ∧
      (∀ t ∈ (sysRun (sysInit base nid u amt k n) sched).threads,
        t.pc = ThreadPC.done (Except.ok tx)) ∧
      appliedSum (sysRun (sysInit base nid u amt k n) sched).log u
        = appliedSum base u + amt := by
  set s' := sysRun (sysInit base nid u amt k n) sched with hs'
  have hinv0 : RaceInv base u amt k (sysInit base nid u amt k n) := by
    constructor
    · intro t ht
      have heq := List.eq_of_mem_replicate ht
      subst heq
      exact ⟨rfl, rfl, rfl, Or.inl rfl⟩
    · exact Or.inl rfl
  obtain ⟨hth, hlogd⟩ := RaceInv_sysRun base u amt k sched _ hpos hinv0
  have hlen : s'.threads.length = n := by
    rw [hs', sysRun_threads_length]
    simp [sysInit]
  have hne : s'.threads ≠ [] := by
    intro h0
    rw [h0] at hlen
    simp at hlen
    omega
  obtain ⟨t0, ht0⟩ := List.exists_mem_of_ne_nil _ hne
  obtain ⟨-, -, -, hpc0⟩ := hth t0 ht0
  have hd0 := hdone t0 ht0
  rcases hpc0 with h | h | ⟨w, hw, hfindw⟩
  · rw [h] at hd0
    exact absurd hd0 (by simp [ThreadPC.isDone])
  · rw [h] at hd0
    exact absurd hd0 (by simp [ThreadPC.isDone])
  rcases hlogd with hbm | ⟨tx, he, h1, h2, h3⟩
  · rw [hbm, hbase] at hfindw
    exact Option.noConfusion hfindw
  have hfx : FindByIdempotencyKey s'.log u k = some tx := by
    rw [he]
    exact find_cons_hit _ _ _ _ h1 h2
  refine ⟨tx, he, h1, h2, h3, ?_, ?_⟩
  · intro t ht
    obtain ⟨-, -, -, hpc⟩ := hth t ht
    have hd := hdone t ht
    rcases hpc with h | h | ⟨w', hw', hfw'⟩
    · rw [h] at hd
      exact absurd hd (by simp [ThreadPC.isDone])
    · rw [h] at hd
      exact absurd hd (by simp [ThreadPC.isDone])
    · rw [hfx] at hfw'
      obtain rfl : tx = w' := Option.some.inj hfw'
      exact hw'
  · rw [he, appliedSum_cons, if_pos h1, h3]
    ring

/-- Closed instance of `concurrent_topUps_single_increment`: two identical
concurrent requests under an interleaving in which both pass the
idempotency lookup before either appends. -/
theorem concurrent_topUps_single_increment_w :
    (0 : Int) < 500 ∧ FindByIdempotencyKey [] "u1" "k1" = none ∧ 0 < 2 ∧
    (∀ t ∈ (sysRun (sysInit [] 0 "u1" 500 "k1" 2) [0, 1, 0, 1]).threads,
      t.pc.isDone = true) ∧
    (∃ tx : Transaction,
      (sysRun (sysInit [] 0 "u1" 500 "k1" 2) [0, 1, 0, 1]).log = tx :: [] ∧
      tx.userId = "u1" ∧ tx.idempotencyKey = "k1" ∧ tx.amount = 500 ∧
      (∀ t ∈ (sysRun (sysInit [] 0 "u1" 500 "k1" 2) [0, 1, 0, 1]).threads,
        t.pc = ThreadPC.done (Except.ok tx)) ∧
      appliedSum (sysRun (sysInit [] 0 "u1" 500 "k1" 2) [0, 1, 0, 1]).log "u1"
        = appliedSum [] "u1" + 500) :=
  ⟨by decide, rfl, by decide, by decide,
    concurrent_topUps_single_increment [] 0 "u1" 500 "k1" 2 [0, 1, 0, 1]
      (by decide) rfl (by decide) (by decide)⟩

theorem topUpLoop_log_grows (s : LedgerState) (u : String) (amt : Int)
    (k : String) :
    ∀ fuel, ∃ pre, (topUpLoop s u amt k fuel).2.log = pre ++ s.log
  | 0 => ⟨[], rfl⟩
  | fuel + 1 => by
    cases hf : FindByIdempotencyKey s.log u k with
    | none =>
      refine ⟨[freshTx s u amt k], ?_⟩
      simp [topUpLoop, ConditionalIncrement, BalanceGet, AppendTx, hf, freshTx]
    | some w =>
      refine ⟨[], ?_⟩
      simp [topUpLoop, ConditionalIncrement, BalanceGet, AppendTx, hf]

theorem applyOp_log_grows (s : LedgerState) (op : String × Int × String) :
    ∃ pre, (applyOp s op).log = pre ++ s.log := by
  obtain ⟨u, amt, k⟩ := op
  by_cases hle : amt ≤ 0
  · exact ⟨[], by simp [applyOp, topUp, hle]⟩
  · cases hf : FindByIdempotencyKey s.log u k with
    | some tx => exact ⟨[], by simp [applyOp, topUp, hle, hf]⟩
    | none =>
      obtain ⟨pre, hp⟩ := topUpLoop_log_grows s u amt k maxRetries
      exact ⟨pre, by simpa [applyOp, topUp, hle, hf] using hp⟩

theorem sysStep_log_grows (s : SysState) (i : Nat) :
    ∃ pre, (sysStep s i).log = pre ++ s.log := by
  cases hi : s.threads[i]? with
  | none => exact ⟨[], by simp [sysStep, hi]⟩
  | some t =>
    cases hpc : t.pc with
    | done r => exact ⟨[], by simp [sysStep, hi, threadStep, hpc]⟩
    | start =>
      by_cases hle : t.amt ≤ 0
      · exact ⟨[], by simp [sysStep, hi, threadStep, hpc, hle]⟩
      · cases hf : FindByIdempotencyKey s.log t.user t.key with
        | some w => exact ⟨[], by simp [sysStep, hi, threadStep, hpc, hle, hf]⟩
        | none => exact ⟨[], by simp [sysStep, hi, threadStep, hpc, hle, hf]⟩
    | appending =>
      cases hf : FindByIdempotencyKey s.log t.user t.key with
      | some w => exact ⟨[], by simp [sysStep, hi, threadStep, hpc, hf]⟩
      | none =>
        exact ⟨[raceTx s.nextId t], by simp [sysStep, hi, threadStep, hpc, hf]⟩

/-- C8: the transaction log is append-only: every top-up operation of the
sequential ledger and every interleaved store step of the concurrent model
either leaves the log unchanged or prepends fresh records in front of it
(the `Append` of step 5 being the only mutation), so every already
persisted Transaction remains in the log unmodified; the query operations
`GetBalance` and `GetRecentTransactions` are pure functions of the state
and mutate nothing. -/
theorem log_append_only :
    (∀ (s : LedgerState) (op : String × Int × String),
      ∃ pre, (applyOp s op).log = pre ++ s.log) ∧
    (∀ (s : SysState) (i : Nat), ∃ pre, (sysStep s i).log = pre ++ s.log) ∧
    (∀ (s : LedgerState) (op : String × Int × String) (tx : Transaction),
      tx ∈ s.log → tx ∈ (applyOp s op).log) ∧
    (∀ (s : SysState) (i : Nat) (tx : Transaction),
      tx ∈ s.log → tx ∈ (sysStep s i).log) := by
  refine ⟨applyOp_log_grows, sysStep_log_grows, ?_, ?_⟩
  · intro s op tx htx
    obtain ⟨pre, hp⟩ := applyOp_log_grows s op
    rw [hp]
    exact List.mem_append.mpr (Or.inr htx)
  · intro s i tx htx
    obtain ⟨pre, hp⟩ := sysStep_log_grows s i
    rw [hp]
    exact List.mem_append.mpr (Or.inr htx)

/-- Closed instance of `log_append_only`: an already persisted record
survives a further step at a concrete input. -/
theorem log_append_only_w :
    c5Tx ∈ c5St.log ∧ c5Tx ∈ (sysStep c5St 0).log :=
  ⟨by decide, log_append_only.2.2.2 c5St 0 c5Tx (by decide)⟩

/-- Embedded from `apps/web/app/page.tsx` (`safeJoin`): the effect of
`base.replace(/\/+$/, "")`, removing the maximal run of trailing `/`. -/
def stripTrailingSlashes (s : String) : String :=
  String.mk (s.data.reverse.dropWhile fun c => c = '/').reverse

/-- Embedded from `apps/web/app/page.tsx` (`safeJoin`): the effect of
`path.replace(/^\/+/, "")`, removing the maximal run of leading `/`. -/
def stripLeadingSlashes (s : String) : String :=
  String.mk (s.data.dropWhile fun c => c = '/')

/-- Embedded from `apps/web/app/page.tsx`:
`safeJoin(base, path)` returns `` `${b}/${p}` `` for the stripped parts. -/
def safeJoin (base path : String) : String :=
  stripTrailingSlashes base ++ "/" ++ stripLeadingSlashes path

theorem head_dropWhile_not (p : Char → Bool) (l : List Char) :
    ∀ c ∈ (l.dropWhile p).head?, p c = false := by
  induction l with
  | nil => simp
  | cons a t ih =>
    by_cases hp : p a <;> simp [List.dropWhile, hp]
    intro c hc
    exact ih c hc

theorem slashes_decomposition (l : List Char) :
    l = List.replicate (l.takeWhile fun c => c = '/').length '/'
      ++ (l.dropWhile fun c => c = '/') := by
  have h2 : l.takeWhile (fun c => c = '/')
      = List.replicate (l.takeWhile fun c => c = '/').length '/' :=
    List.eq_replicate_of_mem fun b hb => by
      have := List.mem_takeWhile_imp hb
      simpa using this
  conv_lhs => rw [← List.takeWhile_append_dropWhile
    (p := fun c => decide (c = '/')) (l := l)]
  rw [← h2]

/-- C9: `safeJoin` returns `base` with its maximal run of trailing slashes
removed, then exactly one `/`, then `path` with its maximal run of leading
slashes removed: the inputs decompose into stripped part plus a slash run,
and neither side of the junction carries a slash, so the junction never
contains a doubled slash.  As a Lean function it is pure and deterministic
by construction. -/
theorem safeJoin_correct (base path : String) :
    safeJoin base path
      = stripTrailingSlashes base ++ "/" ++ stripLeadingSlashes path ∧
    (∃ m, base.data = (stripTrailingSlashes base).data ++ List.replicate m '/') ∧
    (∃ m, path.data = List.replicate m '/' ++ (stripLeadingSlashes path).data) ∧
    (∀ c ∈ (stripTrailingSlashes base).data.getLast?, c ≠ '/') ∧
    (∀ c ∈ (stripLeadingSlashes path).data.head?, c ≠ '/') := by
  refine ⟨rfl, ?_, ?_, ?_, ?_⟩
  · refine ⟨(base.data.reverse.takeWhile fun c => c = '/').length, ?_⟩
    have h := slashes_decomposition base.data.reverse
    have h2 := congrArg List.reverse h
    rw [List.reverse_reverse, List.reverse_append, List.reverse_replicate] at h2
    exact h2
  · exact ⟨(path.data.takeWhile fun c => c = '/').length,
      slashes_decomposition path.data⟩
  · intro c hc
    rw [show (stripTrailingSlashes base).data
        = (base.data.reverse.dropWhile fun c => c = '/').reverse from rfl,
      List.getLast?_reverse] at hc
    have := head_dropWhile_not (fun c => decide (c = '/')) base.data.reverse c hc
    simpa using this
  · intro c hc
    have := head_dropWhile_not (fun c => decide (c = '/')) path.data c hc
    simpa using this

/-- Minimal JSON value shape for the transactions response body parsed by
`loadTxs` in `apps/web/app/page.tsx`. -/
inductive JsonVal where
  | null
  | num (n : Int)
  | str (s : String)
  | boolean (b : Bool)
  | arr (items : List JsonVal)
  | obj (fields : List (String × JsonVal))

/-- Embedded from `apps/web/app/page.tsx` (`loadTxs`): the item extraction
`(data?.items ?? []) as Tx[]`.  Optional chaining yields `undefined`
unless `data` is an object, a missing `items` field also yields
`undefined`, and the nullish coalescing `?? []` maps both `undefined` and
`null` to the empty array. -/
def loadTxsItems (data : JsonVal) : JsonVal :=
  match data with
  | JsonVal.obj fields =>
    match fields.lookup "items" with
    | some JsonVal.null => JsonVal.arr []
    | some v => v
    | none => JsonVal.arr []
  | _ => JsonVal.arr []

/-- Embedded from the transactions panel of `apps/web/app/page.tsx`: the
placeholder item "No transactions yet." is rendered exactly when the
displayed transaction list is empty (`txs.length === 0`). -/
def showsNoTransactionsMessage (txs : List JsonVal) : Bool :=
  txs.length == 0

/-- C10: when the transactions response body is `null` or an object with
no `items` field, `loadTxs` stores the empty list (the total extraction
`data?.items ?? []` cannot throw), and the transactions panel then renders
the "No transactions yet." fallback. -/
theorem loadTxs_missing_items_safe (fields : List (String × JsonVal))
    (h : fields.lookup "items" = none) :
    loadTxsItems JsonVal.null = JsonVal.arr [] ∧
    loadTxsItems (JsonVal.obj fields) = JsonVal.arr [] ∧
    showsNoTransactionsMessage [] = true := by
  refine ⟨rfl, ?_, rfl⟩
  simp [loadTxsItems, h]

/-- Closed instance of `loadTxs_missing_items_safe` at a concrete body. -/
theorem loadTxs_missing_items_safe_w :
    ([(("wallet" : String), JsonVal.num 3)].lookup "items" = none) ∧
    (loadTxsItems JsonVal.null = JsonVal.arr [] ∧
      loadTxsItems (JsonVal.obj [(("wallet" : String), JsonVal.num 3)])
        = JsonVal.arr [] ∧
      showsNoTransactionsMessage [] = true) :=
  ⟨rfl, loadTxs_missing_items_safe [(("wallet" : String), JsonVal.num 3)] rfl⟩

/-- Closed instance of `balance_conservation` at a concrete sequence. -/
theorem balance_conservation_w :
    (runOps initState [("u1", 500, "k1"), ("u1", 200, "k2")]).balances "u1"
      = appliedSum (runOps initState [("u1", 500, "k1"), ("u1", 200, "k2")]).log "u1" :=
  balance_conservation [("u1", 500, "k1"), ("u1", 200, "k2")] "u1"

/-- Closed instance of `safeJoin_correct` at the health URL of the page. -/
theorem safeJoin_correct_w :
    safeJoin "https://api.example.com/" "/v1/health"
      = stripTrailingSlashes "https://api.example.com/" ++ "/"
        ++ stripLeadingSlashes "/v1/health" ∧
    (∃ m, ("https://api.example.com/" : String).data
      = (stripTrailingSlashes "https://api.example.com/").data ++ List.replicate m '/') ∧
    (∃ m, ("/v1/health" : String).data
      = List.replicate m '/' ++ (stripLeadingSlashes "/v1/health").data) ∧
    (∀ c ∈ (stripTrailingSlashes "https://api.example.com/").data.getLast?, c ≠ '/') ∧
    (∀ c ∈ (stripLeadingSlashes "/v1/health").data.head?, c ≠ '/') :=
  safeJoin_correct "https://api.example.com/" "/v1/health"

/-- The scenario of spec §8: a first top-up yields balance 500, the
replayed identical call leaves it at 500, a second distinct top-up takes
it to 700, and the newest-first transaction feed lists 200 before 500. -/
theorem scenario_spec8 :
    (topUp initState "u1" 500 "k1").2.balances "u1" = 500 ∧
    (topUp initState "u1" 0 "k1").1 = Except.error LedgerError.InvalidAmount ∧
    (runOps initState [("u1", 500, "k1"), ("u1", 500, "k1"), ("u1", 200, "k2")]).balances "u1"
      = 700 ∧
    (GetRecentTransactions
        (runOps initState [("u1", 500, "k1"), ("u1", 500, "k1"), ("u1", 200, "k2")]) "u1" 10).map
        Transaction.amount = [200, 500] := by
  refine ⟨by rfl, by rfl, by rfl, by rfl⟩
